import Mathlib

/-!
Verification of the MeatPack G-Code compression codec
(`Firmware/MeatPack.h` and its specification).

The repository ships the public header `Firmware/MeatPack.h`, which fixes
the wire constants (escape-nibble masks, the five command codes) and
declares the three entry points `mp_handle_rx_char`, `mp_reset_state`
and `mp_trigger_cmd`.  The state machine behind those entry points is
described operationally by the specification (sections 4.2-4.4): a
per-byte decoder with five states, a command channel keyed on the
two-byte `0xFF 0xFF` prefix, and a pairing encoder.  Characters and
bytes are modelled as `Nat` with nibble extraction written as `% 16`
and `/ 16` (the masks `& 0x0F` and `>> 4` of the wire format).
-/

namespace MeatPack

/-- Constant from `MeatPack.h`: `MeatPack_SecondNotPacked = 0b11110000`.
High nibble all ones: the second character of the pair is escaped. -/
def MeatPack_SecondNotPacked : Nat := 0b11110000

/-- Constant from `MeatPack.h`: `MeatPack_FirstNotPacked = 0b00001111`.
Low nibble all ones: the first character of the pair is escaped. -/
def MeatPack_FirstNotPacked : Nat := 0b00001111

/-- Command/escape signal byte `0xFF`: two in sequence announce a command
(per the comment block above `MeatPack_Command` in `MeatPack.h`). -/
def MeatPack_CommandByte : Nat := 0xFF

/-- Enum value from `MeatPack.h`: `MPC_None = 0b00000000`. -/
def MPC_None : Nat := 0b00000000

/-- Enum value from `MeatPack.h`: `MPC_TogglePacking = 0b11111101`. -/
def MPC_TogglePacking : Nat := 0b11111101

/-- Enum value from `MeatPack.h`: `MPC_EnablePacking = 0b11111011`. -/
def MPC_EnablePacking : Nat := 0b11111011

/-- Enum value from `MeatPack.h`: `MPC_DisablePacking = 0b11111010`. -/
def MPC_DisablePacking : Nat := 0b11111010

/-- Enum value from `MeatPack.h`: `MPC_ResetState = 0b11111001`. -/
def MPC_ResetState : Nat := 0b11111001

/-- Enum value from `MeatPack.h`: `MPC_QueryState = 0b11111000`. -/
def MPC_QueryState : Nat := 0b11111000

/-- Modelled from the spec (section 4.1, the implementation file holding the
lookup table is not in the repository snapshot): the Alphabet Table is an
ordered sequence of exactly 15 distinct 8-bit character values, indexed
0-14; index 15 (0xF) is reserved as the escape sentinel and the reserved
command byte 0xFF is never a table entry. -/
structure Alphabet where
  tbl : Fin 15 → Nat
  tbl_byte : ∀ i : Fin 15, tbl i < 255
  tbl_inj : ∀ i j : Fin 15, tbl i = tbl j → i = j

/-- Modelled from the spec (section 4.1): `encode_index(char) -> index in
[0,14] | none`, the derived inverse mapping of the table. -/
def encode_index (A : Alphabet) (c : Nat) : Option (Fin 15) :=
  (List.finRange 15).find? fun i => A.tbl i = c

/-- Modelled from the spec (section 4.1): `decode_char(index in [0,14]) ->
char`, plain table lookup (total: out-of-range indices return 0, a value
the decoder never feeds it). -/
def decode_char (A : Alphabet) (n : Nat) : Nat :=
  if h : n < 15 then A.tbl ⟨n, h⟩ else 0

/-- Modelled from the spec (section 4.2, the implementation file defining
the decoder states is not in the repository snapshot): the Decode Session
State.  `AwaitLiteral1` is also the merged `0xFF` lookahead of section
4.3 (the 1-bit saw-first-0xFF command-detection flag). -/
inductive MPState where
  | Idle : MPState
  | AwaitLiteral1 : MPState
  | AwaitLiteral1ThenHaveBuffered2 : Nat → MPState
  | AwaitLiteral2 : MPState
  | AwaitCommandByte : MPState
deriving DecidableEq, Repr

/-- Modelled from the spec (section 3): codec-wide state, the
`packing_enabled` configuration plus the Decode Session State. -/
structure MPCodec where
  packing_enabled : Bool
  state : MPState
deriving DecidableEq, Repr

/-- Modelled from the spec (sections 4.2 and 7): the result of one call to
the byte handler: the successor codec state, the 0-2 emitted characters
(in emission order), and the observable protocol-desynchronization fault
flag of section 7. -/
structure StepResult where
  codec : MPCodec
  out : List Nat
  error : Bool
deriving DecidableEq, Repr

/-- Modelled from the spec (section 4.3): dispatch of the byte consumed in
`AwaitCommandByte`.  Enable/disable/toggle mutate `packing_enabled`;
reset clears the Decode Session State back to `Idle`; query only signals
the transport; an unrecognized code is the observable protocol error of
section 7 with an implicit state reset to `Idle`. -/
def mp_handle_cmd (en : Bool) (c : Nat) : StepResult :=
  if c = MPC_TogglePacking then ⟨⟨!en, .Idle⟩, [], false⟩
  else if c = MPC_EnablePacking then ⟨⟨true, .Idle⟩, [], false⟩
  else if c = MPC_DisablePacking then ⟨⟨false, .Idle⟩, [], false⟩
  else if c = MPC_ResetState then ⟨⟨en, .Idle⟩, [], false⟩
  else if c = MPC_QueryState then ⟨⟨en, .Idle⟩, [], false⟩
  else ⟨⟨en, .Idle⟩, [], true⟩

/-- Modelled from the spec (sections 4.2, 4.3 and 8; the implementation of
the declared `mp_handle_rx_char` is not in the repository snapshot): the
per-byte decoder dispatch.

From `Idle` with packing enabled: `0xFF` enters the merged lookahead
state; otherwise the byte splits into low nibble (first character) and
high nibble (second character), each either a table index or the escape
sentinel `0xF`.  In the lookahead state a second `0xFF` announces a
command; any other byte is the literal (escaped) first character.  With
packing disabled the handler still watches for the two-`0xFF` command
prefix but otherwise passes bytes through unchanged; a withheld lone
`0xFF` is replayed in front of the following byte so that no data is
lost. -/
def mp_handle_rx_char (A : Alphabet) (s : MPCodec) (c : Nat) : StepResult :=
  match s.state with
  | .AwaitCommandByte => mp_handle_cmd s.packing_enabled c
  | .AwaitLiteral1 =>
      if c = MeatPack_CommandByte then ⟨⟨s.packing_enabled, .AwaitCommandByte⟩, [], false⟩
      else if s.packing_enabled then ⟨⟨s.packing_enabled, .AwaitLiteral2⟩, [c], false⟩
      else ⟨⟨s.packing_enabled, .Idle⟩, [MeatPack_CommandByte, c], false⟩
  | .AwaitLiteral2 => ⟨⟨s.packing_enabled, .Idle⟩, [c], false⟩
  | .AwaitLiteral1ThenHaveBuffered2 buf => ⟨⟨s.packing_enabled, .Idle⟩, [c, buf], false⟩
  | .Idle =>
      if c = MeatPack_CommandByte then ⟨⟨s.packing_enabled, .AwaitLiteral1⟩, [], false⟩
      else if s.packing_enabled then
        let lo := c % 16
        let hi := c / 16 % 16
        if lo = 0xF then ⟨⟨s.packing_enabled, .AwaitLiteral1ThenHaveBuffered2 (decode_char A hi)⟩, [], false⟩
        else if hi = 0xF then ⟨⟨s.packing_enabled, .AwaitLiteral2⟩, [decode_char A lo], false⟩
        else ⟨⟨s.packing_enabled, .Idle⟩, [decode_char A lo, decode_char A hi], false⟩
      else ⟨⟨s.packing_enabled, .Idle⟩, [c], false⟩

/-- Modelled from the spec (`mp_reset_state` is declared in `MeatPack.h`
but its body is not in the repository snapshot; section 4.3): reset
clears the Decode Session State back to `Idle` with no buffered
character, leaving the configuration alone. -/
def mp_reset_state (s : MPCodec) : MPCodec :=
  ⟨s.packing_enabled, .Idle⟩

/-- Modelled from the spec (`mp_trigger_cmd` is declared in `MeatPack.h`
but its body is not in the repository snapshot; section 4.3): the manual
trigger applies the identical side effects as if the corresponding byte
sequence had been received. -/
def mp_trigger_cmd (cmd : Nat) (s : MPCodec) : MPCodec :=
  if cmd = MPC_TogglePacking then ⟨!s.packing_enabled, s.state⟩
  else if cmd = MPC_EnablePacking then ⟨true, s.state⟩
  else if cmd = MPC_DisablePacking then ⟨false, s.state⟩
  else if cmd = MPC_ResetState then mp_reset_state s
  else if cmd = MPC_QueryState then s
  else s

/-- Folds the byte handler over a byte list, concatenating the emitted
characters in order (the unpacker driven byte by byte, section 2). -/
def decodeList (A : Alphabet) (s : MPCodec) : List Nat → MPCodec × List Nat
  | [] => (s, [])
  | c :: rest =>
      let r := mp_handle_rx_char A s c
      let t := decodeList A r.codec rest
      (t.1, r.out ++ t.2)

/-- Modelled from the spec (section 4.4): byte(s) the Packer emits for one
pair of consecutive input characters.  In-table indices occupy the low
(first character) and high (second character) nibble, written
arithmetically: `index(c2) * 16 + index(c1)` equals
`(index(c2) << 4) | index(c1)` since indices are below 16; an absent
character puts the escape sentinel `0xF` in its nibble and appends the
literal byte. -/
def pack_pair (A : Alphabet) (c1 c2 : Nat) : List Nat :=
  match encode_index A c1, encode_index A c2 with
  | some i1, some i2 => [i2.val * 16 + i1.val]
  | none, some i2 => [i2.val * 16 + 0xF, c1]
  | some i1, none => [0xF * 16 + i1.val, c2]
  | none, none => [MeatPack_CommandByte, c1, c2]

/-- Modelled from the spec (sections 4.4 and 9): the Packer over a whole
character sequence.  A trailing unpaired character is flushed with the
section-9 single-character convention: escape-style, literal only, no
pairing (the second nibble is the sentinel and no second literal
follows). -/
def encode (A : Alphabet) : List Nat → List Nat
  | [] => []
  | [c] =>
      match encode_index A c with
      | some i => [0xF * 16 + i.val]
      | none => [MeatPack_CommandByte, c]
  | c1 :: c2 :: rest => pack_pair A c1 c2 ++ encode A rest

/-- Concrete Alphabet Table for the section-8 scenario: index 0 is the
character `0` (48) and index 1 is the space (32); the remaining entries
are the digits, the decimal point, the newline and two command-leading
letters, matching the typical membership named in section 4.1. -/
def scenarioTbl : List Nat :=
  [48, 32, 49, 50, 51, 52, 53, 54, 55, 56, 57, 46, 10, 71, 88]

/-- Concrete Alphabet instance built on `scenarioTbl`. -/
def MPAlphabet : Alphabet where
  tbl i := scenarioTbl.get (Fin.cast (by decide) i)
  tbl_byte := by decide
  tbl_inj := by decide

/-- List of the five recognized command codes of `MeatPack.h`. -/
def mp_command_codes : List Nat :=
  [MPC_TogglePacking, MPC_EnablePacking, MPC_DisablePacking, MPC_ResetState, MPC_QueryState]

/-- Tests whether a byte list contains two adjacent command bytes `0xFF`
(the pattern that would spuriously trigger the command channel,
section 8). -/
def hasDoubleFF : List Nat → Bool
  | a :: b :: rest =>
      (a == MeatPack_CommandByte && b == MeatPack_CommandByte) || hasDoubleFF (b :: rest)
  | _ => false

/-- Tests whether a byte list ends in the command byte `0xFF`. -/
def endsFF : List Nat → Bool
  | [] => false
  | [a] => a == MeatPack_CommandByte
  | _ :: b :: t => endsFF (b :: t)

/-- C5: the five recognized command codes are pairwise distinct single-byte
values, and none of them equals the 0xFF command/escape signal byte or
`MPC_None`. -/
theorem C5_command_codes_distinct :
    mp_command_codes.Nodup ∧
    (∀ c ∈ mp_command_codes, c < 256) ∧
    (∀ c ∈ mp_command_codes, c ≠ MeatPack_CommandByte ∧ c ≠ MPC_None) := by
  decide

set_option maxRecDepth 4000 in
/-- C10: the two escape-nibble masks combine bitwise to exactly the command
byte, and a byte both of whose nibbles are the escape sentinel `0xF` is
bit-identical to `0xFF`; accordingly the decoder, on receiving `0xFF`
in `Idle`, emits nothing and defers the both-escaped/command-prefix
decision to the lookahead state. -/
theorem C10_escape_masks_cover_command_byte :
    MeatPack_FirstNotPacked ||| MeatPack_SecondNotPacked = MeatPack_CommandByte ∧
    (∀ c : Fin 256, (c.val % 16 = 0xF ∧ c.val / 16 % 16 = 0xF) ↔ c.val = MeatPack_CommandByte) ∧
    (∀ en : Bool, mp_handle_rx_char MPAlphabet ⟨en, .Idle⟩ MeatPack_CommandByte =
      ⟨⟨en, .AwaitLiteral1⟩, [], false⟩) := by
  decide

/-- C2: with packing enabled and the scenario alphabet (index 0 the
character `0`, index 1 the space), byte `0x10` decodes to the two
characters `0` then space; the sequence `0xFF 0x41 0x42` decodes to the
characters `A` then `B`; and `0xFF 0xFF` followed by the enable-packing
code emits no characters and leaves packing enabled. -/
theorem C2_concrete_scenario :
    (decodeList MPAlphabet ⟨true, .Idle⟩ [0x10]).2 = [48, 32] ∧
    (decodeList MPAlphabet ⟨true, .Idle⟩ [0xFF, 0x41, 0x42]).2 = [0x41, 0x42] ∧
    (decodeList MPAlphabet ⟨true, .Idle⟩ [0xFF, 0xFF, MPC_EnablePacking]).2 = [] ∧
    (decodeList MPAlphabet ⟨true, .Idle⟩ [0xFF, 0xFF, MPC_EnablePacking]).1.packing_enabled = true := by
  decide

/-- C3: one call to the byte handler emits at most two characters (the
model returns the emitted characters as a list, whose length is the
count the C entry point returns), for every codec state and every input
byte. -/
theorem C3_handler_emits_at_most_two (A : Alphabet) (s : MPCodec) (c : Nat) :
    (mp_handle_rx_char A s c).out.length ≤ 2 := by
  rcases s with ⟨en, st⟩
  cases st <;> simp only [mp_handle_rx_char, mp_handle_cmd] <;>
    (try split_ifs) <;> simp

/-- C7: a byte consumed in `AwaitCommandByte` that is none of the five
recognized command codes raises the observable protocol-error flag,
resets the decode state to `Idle`, and emits no characters (in
particular the unrecognized byte is not emitted as data). -/
theorem C7_unrecognized_command_is_error (A : Alphabet) (en : Bool) (c : Nat)
    (h : c ∉ mp_command_codes) :
    mp_handle_rx_char A ⟨en, .AwaitCommandByte⟩ c = ⟨⟨en, .Idle⟩, [], true⟩ := by
  simp only [mp_command_codes, List.mem_cons, List.not_mem_nil, or_false, not_or] at h
  obtain ⟨h1, h2, h3, h4, h5⟩ := h
  simp [mp_handle_rx_char, mp_handle_cmd, h1, h2, h3, h4, h5]

/-- Witness for C7 at the concrete unrecognized byte `0x42`. -/
theorem C7_unrecognized_command_is_error_witness :
    mp_handle_rx_char MPAlphabet ⟨true, .AwaitCommandByte⟩ 0x42 = ⟨⟨true, .Idle⟩, [], true⟩ :=
  C7_unrecognized_command_is_error MPAlphabet true 0x42 (by decide)

/-- C6 counterexample: from the state `AwaitLiteral2` (a pending second
literal), feeding `0xFF 0xFF` followed by the reset code emits
characters (the reset code among them) and does not land in `Idle`: the
first `0xFF` is consumed as the pending literal, so the prefix is torn
apart. -/
theorem C6_reset_not_isolated_in_await_literal2 :
    (decodeList MPAlphabet ⟨true, .AwaitLiteral2⟩ [0xFF, 0xFF, MPC_ResetState]).2 ≠ [] ∧
    (decodeList MPAlphabet ⟨true, .AwaitLiteral2⟩ [0xFF, 0xFF, MPC_ResetState]).1.state ≠ .Idle ∧
    (decodeList MPAlphabet ⟨true, .AwaitLiteral2⟩ [0xFF, 0xFF, MPC_ResetState]).2 =
      [MeatPack_CommandByte, MPC_ResetState] := by
  decide

/-- C6 amended: from the `Idle` state, feeding `0xFF 0xFF` followed by the
reset code leaves the decoder in `Idle` with no buffered character and
emits zero characters, for either packing configuration. -/
theorem C6_reset_from_idle (A : Alphabet) (en : Bool) :
    decodeList A ⟨en, .Idle⟩ [MeatPack_CommandByte, MeatPack_CommandByte, MPC_ResetState] =
      (⟨en, .Idle⟩, []) := by
  cases en <;> rfl

/-- C9: for each of the five commands, the manual trigger applied to the
idle codec yields exactly the state reached by feeding the wire
sequence `0xFF 0xFF cmd` to the byte handler from `Idle`, and the wire
path emits no characters. -/
theorem C9_trigger_matches_wire (A : Alphabet) (en : Bool) (cmd : Nat)
    (h : cmd ∈ mp_command_codes) :
    decodeList A ⟨en, .Idle⟩ [MeatPack_CommandByte, MeatPack_CommandByte, cmd] =
      (mp_trigger_cmd cmd ⟨en, .Idle⟩, []) := by
  simp only [mp_command_codes, List.mem_cons, List.not_mem_nil, or_false] at h
  rcases h with h | h | h | h | h <;> subst h <;> cases en <;> rfl

/-- Witness for C9 at the toggle-packing command with packing enabled. -/
theorem C9_trigger_matches_wire_witness :
    decodeList MPAlphabet ⟨true, .Idle⟩ [MeatPack_CommandByte, MeatPack_CommandByte, MPC_TogglePacking] =
      (mp_trigger_cmd MPC_TogglePacking ⟨true, .Idle⟩, []) :=
  C9_trigger_matches_wire MPAlphabet true MPC_TogglePacking (by decide)

/-- Inverse-lookup soundness: a found index decodes back to the character
it was found for. -/
theorem decode_char_encode_index (A : Alphabet) (c : Nat) (i : Fin 15)
    (h : encode_index A c = some i) : decode_char A i.val = c := by
  have hfind := List.find?_some h
  have htbl : A.tbl i = c := by simpa using hfind
  unfold decode_char
  rw [dif_pos i.isLt]
  simpa using htbl

/-- Decoding the bytes of one packed pair from the enabled idle state
emits exactly the two original characters and returns to the enabled
idle state, whatever follows. -/
theorem decodeList_pack_pair (A : Alphabet) (c1 c2 : Nat) (h1 : c1 < 255) (_h2 : c2 < 255)
    (rest : List Nat) :
    decodeList A ⟨true, .Idle⟩ (pack_pair A c1 c2 ++ rest) =
      ((decodeList A ⟨true, .Idle⟩ rest).1, c1 :: c2 :: (decodeList A ⟨true, .Idle⟩ rest).2) := by
  rcases e1 : encode_index A c1 with _ | i1 <;> rcases e2 : encode_index A c2 with _ | i2 <;>
    simp only [pack_pair, e1, e2]
  · -- both characters escaped: sentinel byte then two literals
    have hc1 : c1 ≠ 255 := by omega
    simp [decodeList, mp_handle_rx_char, MeatPack_CommandByte, hc1]
  · -- first escaped, second packed: buffered second character
    have hi2 := i2.isLt
    have hb : i2.val * 16 + 0xF ≠ 255 := by omega
    have hlo : (i2.val * 16 + 0xF) % 16 = 0xF := by omega
    have hhi : (i2.val * 16 + 0xF) / 16 % 16 = i2.val := by omega
    have hc2 := decode_char_encode_index A c2 i2 e2
    simp [decodeList, mp_handle_rx_char, MeatPack_CommandByte, hb, hlo, hhi, hc2]
  · -- first packed, second escaped: first emitted at once, literal follows
    have hi1 := i1.isLt
    have hb : 0xF * 16 + i1.val ≠ 255 := by omega
    have hlo : (0xF * 16 + i1.val) % 16 = i1.val := by omega
    have hhi : (0xF * 16 + i1.val) / 16 % 16 = 0xF := by omega
    have hl15 : i1.val ≠ 15 := by omega
    have hc1 := decode_char_encode_index A c1 i1 e1
    simp [decodeList, mp_handle_rx_char, MeatPack_CommandByte, hb, hlo, hhi, hl15, hc1]
  · -- both packed in one byte
    have hi1 := i1.isLt
    have hi2 := i2.isLt
    have hb : i2.val * 16 + i1.val ≠ 255 := by omega
    have hlo : (i2.val * 16 + i1.val) % 16 = i1.val := by omega
    have hhi : (i2.val * 16 + i1.val) / 16 % 16 = i2.val := by omega
    have hl15 : i1.val ≠ 15 := by omega
    have hh15 : i2.val ≠ 15 := by omega
    have hc1 := decode_char_encode_index A c1 i1 e1
    have hc2 := decode_char_encode_index A c2 i2 e2
    simp [decodeList, mp_handle_rx_char, MeatPack_CommandByte, hb, hlo, hhi, hl15, hh15, hc1, hc2]

/-- C1: round-trip. For every character sequence over the full byte
alphabet excluding the reserved command byte `0xFF`, feeding the
Packer output byte by byte through the byte handler with packing
enabled reproduces exactly the original sequence. -/
theorem C1_decode_encode_roundtrip (A : Alphabet) (s : List Nat) (h : ∀ c ∈ s, c < 255) :
    (decodeList A ⟨true, .Idle⟩ (encode A s)).2 = s := by
  suffices H : ∀ n (s : List Nat), s.length ≤ n → (∀ c ∈ s, c < 255) →
      (decodeList A ⟨true, .Idle⟩ (encode A s)).2 = s from H s.length s le_rfl h
  intro n
  induction n with
  | zero =>
    intro s hlen _
    have : s = [] := List.length_eq_zero.mp (Nat.le_zero.mp hlen)
    subst this
    rfl
  | succ n ih =>
    intro s hlen hs
    rcases s with _ | ⟨c, _ | ⟨c2, rest⟩⟩
    · rfl
    · -- trailing unpaired character
      rcases e : encode_index A c with _ | i
      · have hc : c ≠ 255 := by have := hs c (by simp); omega
        simp [encode, e, decodeList, mp_handle_rx_char, MeatPack_CommandByte, hc]
      · have hi := i.isLt
        have hb : 0xF * 16 + i.val ≠ 255 := by omega
        have hlo : (0xF * 16 + i.val) % 16 = i.val := by omega
        have hhi : (0xF * 16 + i.val) / 16 % 16 = 0xF := by omega
        have hl15 : i.val ≠ 15 := by omega
        have hc := decode_char_encode_index A c i e
        simp [encode, e, decodeList, mp_handle_rx_char, MeatPack_CommandByte, hb, hlo, hhi, hl15, hc]
    · have h1 : c < 255 := hs c (by simp)
      have h2 : c2 < 255 := hs c2 (by simp)
      have hr : ∀ x ∈ rest, x < 255 := fun x hx => hs x (by simp [hx])
      have hlr : rest.length ≤ n := by
        simp only [List.length_cons] at hlen
        omega
      have henc : encode A (c :: c2 :: rest) = pack_pair A c c2 ++ encode A rest := rfl
      rw [henc, decodeList_pack_pair A c c2 h1 h2, ih rest hlr hr]

/-- Witness for C1 at a sequence mixing in-alphabet and escaped
characters. -/
theorem C1_decode_encode_roundtrip_witness :
    (decodeList MPAlphabet ⟨true, .Idle⟩ (encode MPAlphabet [48, 65, 32, 66, 67])).2 =
      [48, 65, 32, 66, 67] :=
  C1_decode_encode_roundtrip MPAlphabet [48, 65, 32, 66, 67] (by decide)

/-- Concatenation preserves absence of adjacent `0xFF` pairs when the left
part does not end in `0xFF`. -/
theorem hasDoubleFF_append : ∀ xs ys : List Nat, hasDoubleFF xs = false →
    hasDoubleFF ys = false → endsFF xs = false → hasDoubleFF (xs ++ ys) = false
  | [], _, _, hy, _ => hy
  | [a], ys, _, hy, hex => by
      cases ys with
      | nil => rfl
      | cons b t =>
          have ha : (a == MeatPack_CommandByte) = false := by simpa [endsFF] using hex
          simpa [hasDoubleFF, ha] using hy
  | a :: b :: t, ys, hx, hy, hex => by
      have hx1 : (a == MeatPack_CommandByte && b == MeatPack_CommandByte) = false ∧
          hasDoubleFF (b :: t) = false := by
        simpa [hasDoubleFF, Bool.or_eq_false_iff] using hx
      have hex1 : endsFF (b :: t) = false := by simpa [endsFF] using hex
      have := hasDoubleFF_append (b :: t) ys hx1.2 hy hex1
      simpa [hasDoubleFF, hx1.1] using this

/-- Concatenation of lists not ending in `0xFF` does not end in `0xFF`. -/
theorem endsFF_append : ∀ xs ys : List Nat, endsFF xs = false → endsFF ys = false →
    endsFF (xs ++ ys) = false
  | [], _, _, hy => hy
  | [a], ys, hx, hy => by
      cases ys with
      | nil => simpa [endsFF] using hx
      | cons b t => simpa [endsFF] using hy
  | a :: b :: t, ys, hx, hy => by
      have hx1 : endsFF (b :: t) = false := by simpa [endsFF] using hx
      have := endsFF_append (b :: t) ys hx1 hy
      simpa [endsFF] using this

/-- Byte chunk emitted for one pair of valid characters: it contains no
adjacent `0xFF` pair and does not end in `0xFF`. -/
theorem pack_pair_ok (A : Alphabet) (c1 c2 : Nat) (h1 : c1 < 255) (h2 : c2 < 255) :
    hasDoubleFF (pack_pair A c1 c2) = false ∧ endsFF (pack_pair A c1 c2) = false := by
  rcases e1 : encode_index A c1 with _ | i1 <;> rcases e2 : encode_index A c2 with _ | i2 <;>
    simp only [pack_pair, e1, e2]
  · have hc1 : c1 ≠ 255 := by omega
    have hc2 : c2 ≠ 255 := by omega
    simp [hasDoubleFF, endsFF, MeatPack_CommandByte, hc1, hc2]
  · have hi2 := i2.isLt
    have hb : i2.val * 16 + 0xF ≠ 255 := by omega
    have hc1 : c1 ≠ 255 := by omega
    simp [hasDoubleFF, endsFF, MeatPack_CommandByte, hb, hc1]
  · have hi1 := i1.isLt
    have hb : 0xF * 16 + i1.val ≠ 255 := by omega
    have hc2 : c2 ≠ 255 := by omega
    simp [hasDoubleFF, endsFF, MeatPack_CommandByte, hb, hc2]
  · have hi1 := i1.isLt
    have hi2 := i2.isLt
    have hb : i2.val * 16 + i1.val ≠ 255 := by omega
    simp [hasDoubleFF, endsFF, MeatPack_CommandByte, hb]

/-- Invariant of the Packer output over a valid character sequence: no
adjacent `0xFF` pair, and the output never ends in `0xFF`. -/
theorem encode_ok (A : Alphabet) : ∀ s : List Nat, (∀ c ∈ s, c < 255) →
    hasDoubleFF (encode A s) = false ∧ endsFF (encode A s) = false
  | [], _ => by simp [encode, hasDoubleFF, endsFF]
  | [c], h => by
      rcases e : encode_index A c with _ | i
      · have hc : c ≠ 255 := by have := h c (by simp); omega
        simp [encode, e, hasDoubleFF, endsFF, MeatPack_CommandByte, hc]
      · have hi := i.isLt
        have hb : 0xF * 16 + i.val ≠ 255 := by omega
        simp [encode, e, hasDoubleFF, endsFF, MeatPack_CommandByte, hb]
  | c1 :: c2 :: rest, h => by
      have h1 : c1 < 255 := h c1 (by simp)
      have h2 : c2 < 255 := h c2 (by simp)
      have hr : ∀ x ∈ rest, x < 255 := fun x hx => h x (by simp [hx])
      have hp := pack_pair_ok A c1 c2 h1 h2
      have he := encode_ok A rest hr
      have henc : encode A (c1 :: c2 :: rest) = pack_pair A c1 c2 ++ encode A rest := rfl
      rw [henc]
      exact ⟨hasDoubleFF_append _ _ hp.1 he.1 hp.2, endsFF_append _ _ hp.2 he.2⟩

/-- C8: for every character sequence over the full byte alphabet excluding
`0xFF`, the Packer's general-purpose pairing output never contains two
consecutive `0xFF` bytes: a both-escaped pair followed by another
both-escaped pair never produces adjacent `0xFF` bytes, since literal
bytes on the escape path are themselves never `0xFF`. -/
theorem C8_encoder_no_double_command_byte (A : Alphabet) (s : List Nat)
    (h : ∀ c ∈ s, c < 255) : hasDoubleFF (encode A s) = false :=
  (encode_ok A s h).1

/-- Witness for C8 at two adjacent both-escaped pairs, the adversarial
sequence named by the spec (the encoding is `FF 41 42 FF 43 44`). -/
theorem C8_encoder_no_double_command_byte_witness :
    hasDoubleFF (encode MPAlphabet [0x41, 0x42, 0x43, 0x44]) = false ∧
    encode MPAlphabet [0x41, 0x42, 0x43, 0x44] =
      [0xFF, 0x41, 0x42, 0xFF, 0x43, 0x44] :=
  ⟨C8_encoder_no_double_command_byte MPAlphabet [0x41, 0x42, 0x43, 0x44] (by decide), by decide⟩

/-- C4 counterexample: with packing disabled, per-call identity fails
around a lone `0xFF`.  In the sequence `0xFF 0x41` neither byte is part
of a two-`0xFF` command prefix, yet the call consuming `0xFF` emits
nothing and the call consuming `0x41` emits two characters (the
withheld `0xFF` replayed, then `0x41`) rather than exactly `0x41`. -/
theorem C4_disabled_identity_counterexample :
    (mp_handle_rx_char MPAlphabet ⟨false, .Idle⟩ 0xFF).out ≠ [0xFF] ∧
    (mp_handle_rx_char MPAlphabet ⟨false, .AwaitLiteral1⟩ 0x41).out ≠ [0x41] ∧
    (mp_handle_rx_char MPAlphabet ⟨false, .Idle⟩ 0xFF).out = [] ∧
    (mp_handle_rx_char MPAlphabet ⟨false, .AwaitLiteral1⟩ 0x41).out = [0xFF, 0x41] := by
  decide

/-- C4 amended: with packing disabled, every byte other than `0xFF` fed
with no pending `0xFF` passes through unchanged, one in one out; the
two `0xFF` bytes of a command prefix are consumed with zero output
characters; a lone withheld `0xFF` is replayed in front of the
following byte, so over any `0xFF`-free sequence the concatenated
output equals the input exactly. -/
theorem C4_disabled_pass_through (A : Alphabet) :
    (∀ c : Nat, c ≠ MeatPack_CommandByte →
      mp_handle_rx_char A ⟨false, .Idle⟩ c = ⟨⟨false, .Idle⟩, [c], false⟩) ∧
    (mp_handle_rx_char A ⟨false, .Idle⟩ MeatPack_CommandByte =
      ⟨⟨false, .AwaitLiteral1⟩, [], false⟩ ∧
     mp_handle_rx_char A ⟨false, .AwaitLiteral1⟩ MeatPack_CommandByte =
      ⟨⟨false, .AwaitCommandByte⟩, [], false⟩) ∧
    (∀ c : Nat, c ≠ MeatPack_CommandByte →
      mp_handle_rx_char A ⟨false, .AwaitLiteral1⟩ c =
        ⟨⟨false, .Idle⟩, [MeatPack_CommandByte, c], false⟩) ∧
    (∀ s : List Nat, (∀ c ∈ s, c ≠ MeatPack_CommandByte) →
      decodeList A ⟨false, .Idle⟩ s = (⟨false, .Idle⟩, s)) := by
  refine ⟨fun c hc => by simp [mp_handle_rx_char, hc], ⟨by simp [mp_handle_rx_char], by simp [mp_handle_rx_char]⟩, fun c hc => by simp [mp_handle_rx_char, hc], ?_⟩
  intro s hs
  induction s with
  | nil => rfl
  | cons c rest ih =>
      have hc : c ≠ MeatPack_CommandByte := hs c (by simp)
      have hr : ∀ x ∈ rest, x ≠ MeatPack_CommandByte := fun x hx => hs x (by simp [hx])
      simp [decodeList, mp_handle_rx_char, hc, ih hr]

/-- Witness for C4 amended: concrete pass-through of the byte `0x41` and
of the `0xFF`-free sequence `0x41 0x42`. -/
theorem C4_disabled_pass_through_witness :
    mp_handle_rx_char MPAlphabet ⟨false, .Idle⟩ 0x41 = ⟨⟨false, .Idle⟩, [0x41], false⟩ ∧
    decodeList MPAlphabet ⟨false, .Idle⟩ [0x41, 0x42] = (⟨false, .Idle⟩, [0x41, 0x42]) :=
  ⟨(C4_disabled_pass_through MPAlphabet).1 0x41 (by decide),
   (C4_disabled_pass_through MPAlphabet).2.2.2 [0x41, 0x42] (by decide)⟩

end MeatPack
